import Mathlib

/-!
Verification of the debounce scheduler implemented by
src/src/app/projects/hooks/useDebounce.ts.

The hook keeps a ref holding the latest callback (updated by an effect on
every callback change), and returns a memoized lodash debounced wrapper
(keyed on the delay) around a function that invokes the ref through
optional chaining.  We give a discrete-event shallow embedding:

* `DebounceState` is the whole mutable state visible to the hook:
  - `refCurrent`  : the callback currently held in the ref (none before the
                    first effect has run);
  - `delay`       : the delay the current memoized debounce instance was
                    built with;
  - `pending`     : the trailing-edge deadline of the current debounce
                    instance, if a timer is armed (lodash debounce with the
                    default options fires exactly once, at lastCall + delay);
  - `orphaned`    : deadlines of timers still in flight inside debounce
                    instances that were replaced when the delay changed.
                    The memo recomputation does not call cancel on the old
                    instance, so its armed timer keeps running; when it
                    fires it reads the same ref and invokes the currently
                    bound action.
* `Event` is one externally triggered operation: `bind a` (a re-render that
  changes the callback, so the effect stores `a` in the ref), `notify`
  (a call of the returned debounced function), `setDelay d` (a re-render
  with a new delay, which makes the memo build a fresh debounce instance).
* `run` processes a time-ordered trace of events.  Before handling an event
  at time t it fires every deadline that is due (`fireDue`), because the
  event loop runs timer callbacks scheduled earlier than t first; after the
  trace it lets every remaining timer expire (`flush`).  Each expiry with a
  bound action `a` and deadline d emits the invocation `(d, a)`; an expiry
  with an empty ref emits nothing, mirroring the optional chaining.

Invocations are recorded as pairs (time, action).  The scheduler state
transition at an expiry does not depend on the outcome of the invoked
action: lodash clears its timer id and its saved arguments before applying
the wrapped function, so an action that throws leaves the scheduler idle
and reusable.
-/

/-- One operation applied to the hook: a rebinding of the callback, a call
of the debounced function, or a change of the configured delay. -/
inductive Event (A : Type) where
  | bind (a : A)
  | notify
  | setDelay (d : Nat)
  deriving Repr, DecidableEq

/-- The state of the hook: the ref contents, the delay of the current
debounce instance, its pending trailing-edge deadline, and the deadlines
of timers left running in replaced instances. -/
structure DebounceState (A : Type) where
  refCurrent : Option A
  delay : Nat
  pending : Option Nat
  orphaned : List Nat
  deriving Repr, DecidableEq

/-- All deadlines currently in flight: the orphaned ones plus the current
instance's pending one. -/
def deadlinesOf {A : Type} (s : DebounceState A) : List Nat :=
  s.orphaned ++ (match s.pending with | some d => [d] | none => [])

/-- Fire every timer whose deadline is at most t.  Each firing runs the
lodash trailing edge: it invokes the function wrapping the ref, which calls
the currently bound action through optional chaining, and clears the timer. -/
def fireDue {A : Type} (t : Nat) (s : DebounceState A) :
    DebounceState A × List (Nat × A) :=
  let dueOrphans := s.orphaned.filter (fun d => decide (d ≤ t))
  let duePending : List Nat :=
    match s.pending with
    | some d => if d ≤ t then [d] else []
    | none => []
  let s2 : DebounceState A :=
    { refCurrent := s.refCurrent
      delay := s.delay
      pending := match s.pending with
                 | some d => if d ≤ t then none else some d
                 | none => none
      orphaned := s.orphaned.filter (fun d => decide (t < d)) }
  (s2, match s.refCurrent with
       | some a => (dueOrphans ++ duePending).map (fun d => (d, a))
       | none => [])

/-- Process one event at time t, after first firing every timer due by t.
bind stores the new callback in the ref and touches nothing else; notify
arms (or re-arms) the trailing-edge timer for t + delay; setDelay with a
genuinely new value makes the memo build a fresh debounce instance with no
pending timer, while the old instance keeps its armed timer (nothing calls
cancel on it), so that deadline moves to the orphaned list. -/
def stepEvent {A : Type} (s : DebounceState A) (t : Nat) (e : Event A) :
    DebounceState A × List (Nat × A) :=
  let p := fireDue t s
  let s1 := p.1
  match e with
  | Event.bind a => ({ s1 with refCurrent := some a }, p.2)
  | Event.notify => ({ s1 with pending := some (t + s1.delay) }, p.2)
  | Event.setDelay d =>
      if d = s1.delay then (s1, p.2)
      else ({ refCurrent := s1.refCurrent
              delay := d
              pending := none
              orphaned := s1.orphaned ++
                (match s1.pending with | some q => [q] | none => []) }, p.2)

/-- Let every remaining timer expire at its own deadline, after the trace
has ended. -/
def flush {A : Type} (s : DebounceState A) : DebounceState A × List (Nat × A) :=
  ({ refCurrent := s.refCurrent, delay := s.delay, pending := none, orphaned := [] },
   match s.refCurrent with
   | some a => (deadlinesOf s).map (fun d => (d, a))
   | none => [])

/-- Run a time-ordered trace of events from a state, collecting every
invocation of the bound action in order. -/
def run {A : Type} : DebounceState A → List (Nat × Event A) →
    DebounceState A × List (Nat × A)
  | s, [] => flush s
  | s, (t, e) :: rest =>
      let p := stepEvent s t e
      let q := run p.1 rest
      (q.1, p.2 ++ q.2)

/-- The state of a freshly mounted hook with delay d: empty ref, no timer. -/
def debounce (A : Type) (d : Nat) : DebounceState A :=
  ⟨none, d, none, []⟩

/-- The hook as declared: useDebounce (callback, delay = 1000).  An omitted
delay argument means 1000 milliseconds. -/
def useDebounce (A : Type) (delay : Option Nat) : DebounceState A :=
  debounce A (delay.getD 1000)

/-- A trace consisting only of notify calls at the given times. -/
def notifies {A : Type} (l : List Nat) : List (Nat × Event A) :=
  l.map (fun u => (u, Event.notify))

/-- A trace consisting only of bind calls at the given times. -/
def binds {A : Type} (l : List (Nat × A)) : List (Nat × Event A) :=
  l.map (fun p => (p.1, Event.bind p.2))

/-- Gaps of a notify burst: starting from a call at time t, every following
call comes no earlier and strictly less than δ after its predecessor. -/
def withinGaps (δ : Nat) : Nat → List Nat → Bool
  | _, [] => true
  | t, u :: rest => (decide (t ≤ u) && decide (u < t + δ)) && withinGaps δ u rest

/-- The time of the last call of a burst t, l. -/
def lastTime (t : Nat) : List Nat → Nat
  | [] => t
  | u :: rest => lastTime u rest

/-- Whether an event is a delay change. -/
def isSetDelay {A : Type} : Event A → Bool
  | Event.setDelay _ => true
  | _ => false

/-- A trace with no delay change. -/
def noSetDelay {A : Type} (tr : List (Nat × Event A)) : Bool :=
  tr.all (fun p => ! (isSetDelay p.2))

/-- Rename the actions of an event. -/
def mapEvent {A B : Type} (f : A → B) : Event A → Event B
  | Event.bind a => Event.bind (f a)
  | Event.notify => Event.notify
  | Event.setDelay d => Event.setDelay d

/-- Rename the actions of a state. -/
def mapState {A B : Type} (f : A → B) (s : DebounceState A) : DebounceState B :=
  ⟨s.refCurrent.map f, s.delay, s.pending, s.orphaned⟩

/-- Rename the actions of a trace. -/
def mapTrace {A B : Type} (f : A → B) (tr : List (Nat × Event A)) :
    List (Nat × Event B) :=
  tr.map (fun p => (p.1, mapEvent f p.2))

/-! Basic step lemmas. -/

/-- fireDue preserves the delay of the current instance. -/
theorem fireDue_delay {A : Type} (t : Nat) (s : DebounceState A) :
    (fireDue t s).1.delay = s.delay := rfl

/-- fireDue preserves the ref. -/
theorem fireDue_refCurrent {A : Type} (t : Nat) (s : DebounceState A) :
    (fireDue t s).1.refCurrent = s.refCurrent := rfl

/-- With no timer armed anywhere, fireDue does nothing. -/
theorem fireDue_idle {A : Type} (t δ : Nat) (r : Option A) :
    fireDue t ⟨r, δ, none, []⟩ = (⟨r, δ, none, []⟩, []) := by
  cases r <;> rfl

/-- A pending timer that is not yet due is left alone. -/
theorem fireDue_not_due {A : Type} (t δ d : Nat) (r : Option A) (h : t < d) :
    fireDue t ⟨r, δ, some d, []⟩ = (⟨r, δ, some d, []⟩, []) := by
  cases r <;> simp [fireDue, Nat.not_le.mpr h]

/-- A due pending timer fires once, invoking the bound action, and clears. -/
theorem fireDue_due {A : Type} (t δ d : Nat) (a : A) (h : d ≤ t) :
    fireDue t ⟨some a, δ, some d, []⟩ = (⟨some a, δ, none, []⟩, [(d, a)]) := by
  simp [fireDue, h, Nat.not_lt.mpr h]

/-- A due pending timer with an empty ref fires into a no-op. -/
theorem fireDue_due_empty {A : Type} (t δ d : Nat) (h : d ≤ t) :
    fireDue t (⟨none, δ, some d, []⟩ : DebounceState A) = (⟨none, δ, none, []⟩, []) := by
  simp [fireDue, h, Nat.not_lt.mpr h]

/-- Whatever the event, the invocations a step emits are the due expiries. -/
theorem stepEvent_out {A : Type} (s : DebounceState A) (t : Nat) (e : Event A) :
    (stepEvent s t e).2 = (fireDue t s).2 := by
  cases e with
  | bind a => rfl
  | notify => rfl
  | setDelay d =>
      simp only [stepEvent]
      split <;> rfl

/-- bind with no timer armed just updates the ref. -/
theorem stepEvent_bind_idle {A : Type} (t δ : Nat) (r : Option A) (a : A) :
    stepEvent ⟨r, δ, none, []⟩ t (Event.bind a) = (⟨some a, δ, none, []⟩, []) := by
  cases r <;> rfl

/-- bind before the pending deadline updates the ref and leaves the timer
armed exactly as it was: no cancel, no re-arm, no invocation. -/
theorem stepEvent_bind_pending {A : Type} (t δ d : Nat) (r : Option A) (a : A)
    (h : t < d) :
    stepEvent ⟨r, δ, some d, []⟩ t (Event.bind a) = (⟨some a, δ, some d, []⟩, []) := by
  simp [stepEvent, fireDue_not_due t δ d r h]

/-- notify in the idle state arms the timer for t + δ and invokes nothing. -/
theorem stepEvent_notify_idle {A : Type} (t δ : Nat) (r : Option A) :
    stepEvent ⟨r, δ, none, []⟩ t Event.notify = (⟨r, δ, some (t + δ), []⟩, []) := by
  cases r <;> rfl

/-- notify before the pending deadline re-arms the timer for t + δ,
replacing the old deadline, and invokes nothing. -/
theorem stepEvent_notify_pending {A : Type} (t δ d : Nat) (r : Option A)
    (h : t < d) :
    stepEvent ⟨r, δ, some d, []⟩ t Event.notify = (⟨r, δ, some (t + δ), []⟩, []) := by
  simp [stepEvent, fireDue_not_due t δ d r h]

/-- notify always leaves a timer armed for t plus the current delay. -/
theorem stepEvent_notify_pending_eq {A : Type} (s : DebounceState A) (t : Nat) :
    (stepEvent s t Event.notify).1.pending = some (t + s.delay) := rfl

/-- flush with a bound action lets every remaining deadline expire on it. -/
theorem flush_some {A : Type} (δ d : Nat) (a : A) :
    flush ⟨some a, δ, some d, []⟩ = (⟨some a, δ, none, []⟩, [(d, a)]) := rfl

/-- Unfolding run on a cons. -/
theorem run_cons {A : Type} (s : DebounceState A) (t : Nat) (e : Event A)
    (tr : List (Nat × Event A)) :
    run s ((t, e) :: tr) =
      ((run (stepEvent s t e).1 tr).1,
       (stepEvent s t e).2 ++ (run (stepEvent s t e).1 tr).2) := rfl

/-- Unfolding run on the empty trace. -/
theorem run_nil {A : Type} (s : DebounceState A) : run s [] = flush s := rfl

/-! Induction lemmas over whole traces. -/

/-- A burst of notify calls each strictly less than δ after its predecessor
keeps re-arming the one timer; it fires once, δ after the last call. -/
theorem run_notify_chain {A : Type} (a : A) (δ : Nat) :
    ∀ (l : List Nat) (t : Nat), withinGaps δ t l = true →
      run ⟨some a, δ, some (t + δ), []⟩ (notifies l)
        = (⟨some a, δ, none, []⟩, [(lastTime t l + δ, a)]) := by
  intro l
  induction l with
  | nil => intro t _; rfl
  | cons u rest ih =>
      intro t h
      simp only [withinGaps, Bool.and_eq_true, decide_eq_true_eq] at h
      obtain ⟨⟨htu, hlt⟩, hrest⟩ := h
      have hstep := stepEvent_notify_pending u δ (t + δ) (some a) hlt
      simp only [notifies, List.map_cons]
      rw [run_cons, hstep]
      have := ih u hrest
      simp only [notifies] at this
      rw [this]
      simp [lastTime]

/-- A trace of bind calls alone never invokes anything and never arms a
timer. -/
theorem run_binds_only {A : Type} (δ : Nat) :
    ∀ (l : List (Nat × A)) (r : Option A),
      (run ⟨r, δ, none, []⟩ (binds l)).2 = []
      ∧ (run ⟨r, δ, none, []⟩ (binds l)).1.pending = none
      ∧ (run ⟨r, δ, none, []⟩ (binds l)).1.orphaned = [] := by
  intro l
  induction l with
  | nil =>
      intro r
      cases r <;> exact ⟨rfl, rfl, rfl⟩
  | cons p rest ih =>
      intro r
      simp only [binds, List.map_cons]
      rw [run_cons, stepEvent_bind_idle p.1 δ r p.2]
      have := ih (some p.2)
      simp only [binds] at this
      exact ⟨by simp [this.1], this.2.1, this.2.2⟩

/-! Provenance of deadlines and invocations, for the no-leading-edge claim. -/

/-- Every invocation fireDue emits happens at a deadline that was already
in flight. -/
theorem fireDue_out_mem {A : Type} (t : Nat) (s : DebounceState A) (τ : Nat) (a : A)
    (h : (τ, a) ∈ (fireDue t s).2) : τ ∈ deadlinesOf s := by
  obtain ⟨r, δ, p, o⟩ := s
  cases r with
  | none => simp [fireDue] at h
  | some a0 =>
      cases p with
      | none =>
          simp only [fireDue, List.append_nil, List.mem_map, List.mem_filter,
            Prod.mk.injEq] at h
          obtain ⟨d, ⟨hdo, _⟩, rfl, rfl⟩ := h
          simp [deadlinesOf, hdo]
      | some q =>
          by_cases hq : q ≤ t
          · simp only [fireDue, hq, if_true, List.mem_map, List.mem_append,
              List.mem_filter, List.mem_singleton, Prod.mk.injEq] at h
            obtain ⟨d, hd, rfl, rfl⟩ := h
            simp only [deadlinesOf, List.mem_append, List.mem_singleton]
            rcases hd with ⟨hdo, _⟩ | rfl
            · exact Or.inl hdo
            · exact Or.inr rfl
          · simp only [fireDue, hq, if_false, List.append_nil, List.mem_map,
              List.mem_filter, Prod.mk.injEq] at h
            obtain ⟨d, ⟨hdo, _⟩, rfl, rfl⟩ := h
            simp [deadlinesOf, hdo]

/-- fireDue never invents deadlines: those of the resulting state were in
flight before. -/
theorem deadlines_fireDue_sub {A : Type} (t : Nat) (s : DebounceState A) (τ : Nat)
    (h : τ ∈ deadlinesOf (fireDue t s).1) : τ ∈ deadlinesOf s := by
  obtain ⟨r, δ, p, o⟩ := s
  cases p with
  | none =>
      simp only [fireDue, deadlinesOf, List.append_nil, List.mem_filter] at h ⊢
      exact h.1
  | some q =>
      by_cases hq : q ≤ t
      · simp only [fireDue, deadlinesOf, hq, if_true, List.append_nil,
          List.mem_filter, List.mem_append, List.mem_singleton] at h ⊢
        exact Or.inl h.1
      · simp only [fireDue, deadlinesOf, hq, if_false, List.mem_filter,
          List.mem_append, List.mem_singleton] at h ⊢
        rcases h with ⟨hdo, _⟩ | rfl
        · exact Or.inl hdo
        · exact Or.inr rfl

/-- The steps other than a delay change keep the delay. -/
theorem stepEvent_delay {A : Type} (s : DebounceState A) (t : Nat) (e : Event A)
    (h : isSetDelay e = false) : (stepEvent s t e).1.delay = s.delay := by
  cases e with
  | bind a => rfl
  | notify => rfl
  | setDelay d => simp [isSetDelay] at h

/-- A deadline in flight after a bind or notify step was either already in
flight, or is the t + delay deadline a notify just armed. -/
theorem stepEvent_deadline_mem {A : Type} (s : DebounceState A) (t : Nat)
    (e : Event A) (τ : Nat) (hns : isSetDelay e = false)
    (h : τ ∈ deadlinesOf (stepEvent s t e).1) :
    τ ∈ deadlinesOf s ∨ (e = Event.notify ∧ τ = t + s.delay) := by
  cases e with
  | bind a =>
      left
      exact deadlines_fireDue_sub t s τ h
  | notify =>
      have horp : ∀ u, u ∈ (fireDue t s).1.orphaned → u ∈ deadlinesOf (fireDue t s).1 := by
        intro u hu
        simp [deadlinesOf, List.mem_append, hu]
      simp only [stepEvent, deadlinesOf, List.mem_append, List.mem_singleton] at h
      rcases h with hu | rfl
      · exact Or.inl (deadlines_fireDue_sub t s τ (horp τ hu))
      · exact Or.inr ⟨rfl, by rw [fireDue_delay]⟩
  | setDelay d => simp [isSetDelay] at hns

/-- Every invocation a run from a fixed-delay state emits happens either at
a deadline already in flight at the start, or exactly δ after some notify
of the trace. -/
theorem run_out_times {A : Type} (δ : Nat) :
    ∀ (tr : List (Nat × Event A)) (s : DebounceState A), s.delay = δ →
      noSetDelay tr = true →
      ∀ τ a, (τ, a) ∈ (run s tr).2 →
        τ ∈ deadlinesOf s ∨ ∃ n, (n, Event.notify) ∈ tr ∧ τ = n + δ := by
  intro tr
  induction tr with
  | nil =>
      intro s hδ _ τ a h
      left
      rw [run_nil] at h
      obtain ⟨r, δ0, p, o⟩ := s
      cases r with
      | none => simp [flush] at h
      | some a0 =>
          simp only [flush, List.mem_map, Prod.mk.injEq] at h
          obtain ⟨d, hd, rfl, rfl⟩ := h
          exact hd
  | cons pe rest ih =>
      obtain ⟨t, e⟩ := pe
      intro s hδ hns τ a h
      have hns2 : isSetDelay e = false ∧ noSetDelay rest = true := by
        simpa [noSetDelay, List.all_cons, Bool.and_eq_true] using hns
      rw [run_cons, List.mem_append] at h
      cases h with
      | inl hin =>
          left
          rw [stepEvent_out] at hin
          exact fireDue_out_mem t s τ a hin
      | inr hin =>
          have hδ1 : (stepEvent s t e).1.delay = δ := by
            rw [stepEvent_delay s t e hns2.1, hδ]
          have hrec := ih (stepEvent s t e).1 hδ1 hns2.2 τ a hin
          cases hrec with
          | inl hmem =>
              have := stepEvent_deadline_mem s t e τ hns2.1 hmem
              rcases this with hold | ⟨he, hτ⟩
              · exact Or.inl hold
              · subst he
                exact Or.inr ⟨t, List.mem_cons_self _ _, by rw [hτ, hδ]⟩
          | inr hex =>
              obtain ⟨n, hn, hτ⟩ := hex
              exact Or.inr ⟨n, List.mem_cons_of_mem _ hn, hτ⟩

/-! The scheduler never inspects the bound action: every operation commutes
with renaming the actions. -/

/-- fireDue commutes with renaming the actions. -/
theorem fireDue_map {A B : Type} (f : A → B) (t : Nat) (s : DebounceState A) :
    fireDue t (mapState f s) =
      (mapState f (fireDue t s).1, (fireDue t s).2.map (fun p => (p.1, f p.2))) := by
  obtain ⟨r, δ, p, o⟩ := s
  cases r <;> cases p <;>
    simp [fireDue, mapState, List.map_map, Function.comp_def]

/-- flush commutes with renaming the actions. -/
theorem flush_map {A B : Type} (f : A → B) (s : DebounceState A) :
    flush (mapState f s) =
      (mapState f (flush s).1, (flush s).2.map (fun p => (p.1, f p.2))) := by
  obtain ⟨r, δ, p, o⟩ := s
  cases r <;> cases p <;>
    simp [flush, mapState, deadlinesOf, List.map_map, Function.comp_def]

/-- stepEvent commutes with renaming the actions. -/
theorem stepEvent_map {A B : Type} (f : A → B) (s : DebounceState A) (t : Nat)
    (e : Event A) :
    stepEvent (mapState f s) t (mapEvent f e) =
      (mapState f (stepEvent s t e).1,
       (stepEvent s t e).2.map (fun p => (p.1, f p.2))) := by
  cases e with
  | bind a =>
      simp only [stepEvent, mapEvent, fireDue_map]
      rfl
  | notify =>
      simp only [stepEvent, mapEvent, fireDue_map]
      rfl
  | setDelay d =>
      simp only [stepEvent, mapEvent, fireDue_map]
      have hδ : (mapState f (fireDue t s).1).delay = (fireDue t s).1.delay := rfl
      by_cases hd : d = (fireDue t s).1.delay
      · rw [hδ]
        simp only [hd, if_true]
      · rw [hδ]
        simp only [hd, if_false]
        rfl

/-- run commutes with renaming the actions: the timing, the number of
invocations and the whole state evolution are independent of what the bound
actions are and of how they behave. -/
theorem run_map {A B : Type} (f : A → B) :
    ∀ (tr : List (Nat × Event A)) (s : DebounceState A),
      run (mapState f s) (mapTrace f tr) =
        (mapState f (run s tr).1, (run s tr).2.map (fun p => (p.1, f p.2))) := by
  intro tr
  induction tr with
  | nil => intro s; simpa [mapTrace, run_nil] using flush_map f s
  | cons pe rest ih =>
      obtain ⟨t, e⟩ := pe
      intro s
      simp only [mapTrace, List.map_cons]
      rw [run_cons, stepEvent_map]
      have := ih (stepEvent s t e).1
      simp only [mapTrace] at this
      rw [this, run_cons]
      simp

/-! Claim theorems. -/

/-- C1: for every burst of notify calls in which each call is issued
strictly less than delay milliseconds after the previous one, the currently
bound action is invoked exactly once, exactly delay after the last notify
of the burst, and at no other time. -/
theorem C1_single_trailing_invocation {A : Type} (a : A) (δ t0 t1 : Nat)
    (rest : List Nat) (h : withinGaps δ t1 rest = true) :
    (run (debounce A δ) ((t0, Event.bind a) :: notifies (t1 :: rest))).2
      = [(lastTime t1 rest + δ, a)] := by
  simp only [debounce, notifies, List.map_cons]
  rw [run_cons, stepEvent_bind_idle t0 δ none a]
  rw [run_cons, stepEvent_notify_idle t1 δ (some a)]
  have hc := run_notify_chain a δ rest t1 h
  simp only [notifies] at hc
  rw [hc]
  simp

/-- Witness for C1 at delay 1000 with notify calls at 0 and 500. -/
theorem C1_single_trailing_invocation_witness :
    withinGaps 1000 0 [500] = true
    ∧ (run (debounce Nat 1000) ((0, Event.bind 7) :: notifies [0, 500])).2
        = [(lastTime 0 [500] + 1000, 7)] :=
  ⟨by decide, C1_single_trailing_invocation 7 1000 0 0 [500] (by decide)⟩

/-- C2: if bind A, then notify, then bind B before the timer expires with
no further notify, the single eventual invocation runs B, not A: the
action invoked at expiry is the one bound most recently at firing time. -/
theorem C2_latest_binding_wins {A : Type} (a b : A) (δ t0 t1 t2 : Nat)
    (h : t2 < t1 + δ) :
    (run (debounce A δ)
        [(t0, Event.bind a), (t1, Event.notify), (t2, Event.bind b)]).2
      = [(t1 + δ, b)] := by
  simp only [debounce]
  rw [run_cons, stepEvent_bind_idle t0 δ none a]
  rw [run_cons, stepEvent_notify_idle t1 δ (some a)]
  rw [run_cons, stepEvent_bind_pending t2 δ (t1 + δ) (some a) b h]
  rw [run_nil, flush_some]
  simp

/-- Witness for C2: bind 1 at 0, notify at 10, bind 2 at 500, delay 1000. -/
theorem C2_latest_binding_wins_witness :
    (500 : Nat) < 10 + 1000
    ∧ (run (debounce Nat 1000)
          [(0, Event.bind 1), (10, Event.notify), (500, Event.bind 2)]).2
        = [(10 + 1000, 2)] :=
  ⟨by decide, C2_latest_binding_wins 1 2 1000 0 10 500 (by decide)⟩

/-- C3: a sequence consisting only of bind calls never invokes any bound
action and never arms a timer; moreover a single bind under an armed timer
leaves that timer exactly as it was, cancelling nothing, re-arming nothing
and invoking nothing. -/
theorem C3_bind_is_pure {A : Type} (δ d t : Nat) (r : Option A) (a : A)
    (l : List (Nat × A)) (hd : t < d) :
    (run (debounce A δ) (binds l)).2 = []
    ∧ (run (debounce A δ) (binds l)).1.pending = none
    ∧ (run (debounce A δ) (binds l)).1.orphaned = []
    ∧ stepEvent ⟨r, δ, some d, []⟩ t (Event.bind a)
        = (⟨some a, δ, some d, []⟩, []) :=
  ⟨(run_binds_only δ l none).1, (run_binds_only δ l none).2.1,
   (run_binds_only δ l none).2.2, stepEvent_bind_pending t δ d r a hd⟩

/-- Witness for C3 with two binds and a bind under a timer due at 1000. -/
theorem C3_bind_is_pure_witness :
    (5 : Nat) < 1000
    ∧ ((run (debounce Nat 1000) (binds [(0, 1), (2, 2)])).2 = []
       ∧ (run (debounce Nat 1000) (binds [(0, 1), (2, 2)])).1.pending = none
       ∧ (run (debounce Nat 1000) (binds [(0, 1), (2, 2)])).1.orphaned = []
       ∧ stepEvent ⟨none, 1000, some 1000, []⟩ 5 (Event.bind 3)
           = (⟨some 3, 1000, some 1000, []⟩, [])) :=
  ⟨by decide, C3_bind_is_pure 1000 1000 5 none 3 [(0, 1), (2, 2)] (by decide)⟩

/-- C4 counterexample: with delay 1000, bind 7 and notify at t = 0, then
change the delay to 500 at t = 100.  The claim says the timer armed under
the old delay is invalidated and never fires; in the code nothing cancels
the old debounce instance when the memo rebuilds, so that timer still fires
at t = 1000 — after the delay change — and invokes the bound action. -/
theorem C4_counterexample :
    (run (debounce Nat 1000)
        [(0, Event.bind 7), (0, Event.notify), (100, Event.setDelay 500)]).2
      = [(1000, 7)] := by decide

/-- C4 amended: a delay change builds a fresh debounce instance with no
pending timer (subsequent notify calls use the new delay), but it does not
cancel a timer already armed under the old delay: that timer stays in
flight and still fires at its original deadline, invoking the currently
bound action. -/
theorem C4_fresh_instance_no_cancel {A : Type} (a : A) (δ δ2 t u : Nat)
    (r : Option A) (hne : δ2 ≠ δ) (hu : u < t + δ) :
    stepEvent (⟨r, δ, some (t + δ), []⟩ : DebounceState A) u (Event.setDelay δ2)
      = (⟨r, δ2, none, [t + δ]⟩, [])
    ∧ flush (⟨some a, δ2, none, [t + δ]⟩ : DebounceState A)
      = (⟨some a, δ2, none, []⟩, [(t + δ, a)]) := by
  constructor
  · simp only [stepEvent, fireDue_not_due u δ (t + δ) r hu]
    simp [hne]
  · rfl

/-- Witness for the amended C4: delay 1000 changed to 500 at t = 100. -/
theorem C4_fresh_instance_no_cancel_witness :
    (500 : Nat) ≠ 1000
    ∧ (100 : Nat) < 0 + 1000
    ∧ (stepEvent (⟨some 9, 1000, some (0 + 1000), []⟩ : DebounceState Nat) 100
          (Event.setDelay 500)
        = (⟨some 9, 500, none, [0 + 1000]⟩, [])
       ∧ flush (⟨some 9, 500, none, [0 + 1000]⟩ : DebounceState Nat)
        = (⟨some 9, 500, none, []⟩, [(0 + 1000, 9)])) :=
  ⟨by decide, by decide,
   C4_fresh_instance_no_cancel 9 1000 500 0 100 (some 9) (by decide) (by decide)⟩

/-- C5: two notify calls more than delay apart settle separately: two
invocations occur, each exactly delay after its own notify, and each runs
the action bound at its own firing time — never coalesced across a settled
quiet period. -/
theorem C5_settled_periods_separate {A : Type} (a b : A) (δ t0 t1 t2 : Nat)
    (h : t1 + δ < t2) :
    (run (debounce A δ)
        [(t0, Event.bind a), (t1, Event.notify),
         (t2, Event.bind b), (t2, Event.notify)]).2
      = [(t1 + δ, a), (t2 + δ, b)] := by
  simp only [debounce]
  rw [run_cons, stepEvent_bind_idle t0 δ none a]
  rw [run_cons, stepEvent_notify_idle t1 δ (some a)]
  have hstep : stepEvent (⟨some a, δ, some (t1 + δ), []⟩ : DebounceState A) t2
      (Event.bind b) = (⟨some b, δ, none, []⟩, [(t1 + δ, a)]) := by
    simp [stepEvent, fireDue_due t2 δ (t1 + δ) a (Nat.le_of_lt h)]
  rw [run_cons, hstep]
  rw [run_cons, stepEvent_notify_idle t2 δ (some b)]
  rw [run_nil, flush_some]
  simp

/-- Witness for C5: notify at 0 and at 1101 with delay 1000, rebinding in
between; invocations at 1000 and 2101. -/
theorem C5_settled_periods_separate_witness :
    (0 : Nat) + 1000 < 1101
    ∧ (run (debounce Nat 1000)
          [(0, Event.bind 1), (0, Event.notify),
           (1101, Event.bind 2), (1101, Event.notify)]).2
        = [(0 + 1000, 1), (1101 + 1000, 2)] :=
  ⟨by decide, C5_settled_periods_separate 1 2 1000 0 0 1101 (by decide)⟩

/-- C6: the scheduler is the two-state machine Idle / Pending, pending none
or some deadline: notify in Idle arms the timer for t + delay with no
invocation; notify in Pending re-arms it, replacing the old deadline, with
no invocation; expiry in Pending invokes the bound action exactly once,
clears the timer and returns to Idle; and there is no terminal state —
after any history, notify still arms a timer for t plus the current
delay. -/
theorem C6_two_state_machine {A : Type} (r : Option A) (a : A) (δ t d : Nat)
    (s : DebounceState A) :
    stepEvent ⟨r, δ, none, []⟩ t Event.notify = (⟨r, δ, some (t + δ), []⟩, [])
    ∧ (t < d → stepEvent ⟨r, δ, some d, []⟩ t Event.notify
        = (⟨r, δ, some (t + δ), []⟩, []))
    ∧ (d ≤ t → fireDue t ⟨some a, δ, some d, []⟩
        = (⟨some a, δ, none, []⟩, [(d, a)]))
    ∧ (stepEvent s t Event.notify).1.pending = some (t + s.delay) :=
  ⟨stepEvent_notify_idle t δ r,
   fun h => stepEvent_notify_pending t δ d r h,
   fun h => fireDue_due t δ d a h,
   stepEvent_notify_pending_eq s t⟩

/-- C7: a failure of the bound action cannot interrupt the scheduler.  The
scheduler never inspects the action it holds: renaming the actions of a
trace arbitrarily — in particular, exchanging failing actions for succeeding
ones — changes neither the invocation times nor the state evolution, so the
arming and firing schedule is the same whatever the actions do when run.
The model reflects that lodash clears its timer and saved arguments before
applying the wrapped function, so the state transition at an expiry is
already complete when the action runs; and after any history a notify still
arms a timer, so the scheduler stays usable.  The scheduler itself is a
total function raising no error of its own. -/
theorem C7_failure_does_not_interrupt {A B : Type} (f : A → B)
    (s : DebounceState A) (tr : List (Nat × Event A)) (t : Nat) :
    run (mapState f s) (mapTrace f tr)
      = (mapState f (run s tr).1, (run s tr).2.map (fun p => (p.1, f p.2)))
    ∧ (stepEvent s t Event.notify).1.pending = some (t + s.delay) :=
  ⟨run_map f tr s, stepEvent_notify_pending_eq s t⟩

/-- C8: an omitted delay defaults to 1000 milliseconds, and the hook with an
omitted delay behaves identically, on every trace, to one configured with
delay 1000. -/
theorem C8_default_delay_1000 (A : Type) (tr : List (Nat × Event A)) :
    useDebounce A none = debounce A 1000
    ∧ run (useDebounce A none) tr = run (useDebounce A (some 1000)) tr :=
  ⟨rfl, rfl⟩

/-- C9: a timer firing while no action has ever been bound is a harmless
no-op: the optional chaining invokes nothing and no error is raised, both
at a due expiry and at a final flush. -/
theorem C9_empty_ref_noop {A : Type} (δ d t : Nat) (o : List Nat) (h : d ≤ t) :
    fireDue t (⟨none, δ, some d, []⟩ : DebounceState A)
      = (⟨none, δ, none, []⟩, [])
    ∧ flush (⟨none, δ, some d, o⟩ : DebounceState A)
      = (⟨none, δ, none, []⟩, []) :=
  ⟨fireDue_due_empty t δ d h, rfl⟩

/-- Witness for C9: a timer due at 1000 fires at 1500 on an empty ref. -/
theorem C9_empty_ref_noop_witness :
    (1000 : Nat) ≤ 1500
    ∧ (fireDue 1500 (⟨none, 1, some 1000, []⟩ : DebounceState Nat)
          = (⟨none, 1, none, []⟩, [])
       ∧ flush (⟨none, 1, some 1000, [7]⟩ : DebounceState Nat)
          = (⟨none, 1, none, []⟩, [])) :=
  ⟨by decide, C9_empty_ref_noop 1 1000 1500 [7] (by decide)⟩

/-- C10: there is no leading-edge invocation.  On any trace with a fixed
positive delay, every invocation the run emits happens exactly delay after
some notify of the trace, hence strictly after the notify that armed it;
calling the debounced function never invokes the action synchronously. -/
theorem C10_no_leading_edge {A : Type} (δ : Nat) (tr : List (Nat × Event A))
    (hδ : 0 < δ) (hns : noSetDelay tr = true) (τ : Nat) (a : A)
    (h : (τ, a) ∈ (run (debounce A δ) tr).2) :
    ∃ n, (n, Event.notify) ∈ tr ∧ τ = n + δ ∧ n < τ := by
  have hout := run_out_times δ tr (debounce A δ) rfl hns τ a h
  rcases hout with hmem | ⟨n, hn, hτ⟩
  · simp [debounce, deadlinesOf] at hmem
  · exact ⟨n, hn, hτ, by omega⟩

/-- Witness for C10: bind 5 and notify at 0 with delay 1; the one
invocation is at time 1, strictly after the notify at 0. -/
theorem C10_no_leading_edge_witness :
    (0 : Nat) < 1
    ∧ noSetDelay [(0, Event.bind (5 : Nat)), (0, Event.notify)] = true
    ∧ (1, 5) ∈ (run (debounce Nat 1) [(0, Event.bind 5), (0, Event.notify)]).2
    ∧ ∃ n, (n, Event.notify) ∈ [(0, Event.bind (5 : Nat)), (0, Event.notify)]
        ∧ 1 = n + 1 ∧ n < 1 :=
  ⟨by decide, by decide, by decide,
   C10_no_leading_edge 1 [(0, Event.bind 5), (0, Event.notify)] (by decide)
     (by decide) 1 5 (by decide)⟩
